import Mathlib

/-!
Verification of the PyAutoLens core analysis routines.

This file gives a shallow embedding of the cluster-assignment engine,
the regularization- and mapping-matrix builders, the border relocator
and the evidence formula of the repository, and proves (or refutes)
the specification's claims about them.

Floating-point values are modelled by exact rationals where every
operation of the source is rational (distances, matrix entries), and
by real numbers where the source uses square roots and arc tangents
(the source-plane geometry).  List indexing `l[i]` of the source is
modelled by `List.getD` together with in-range hypotheses.
-/

namespace AutoLens

/-- Squared separation of two coordinates, from
`compute_squared_separation` in `auto_lens/analysis.py` (no square
root, for efficiency). -/
def compute_squared_separation (c1 c2 : ℚ × ℚ) : ℚ :=
  (c1.1 - c2.1) ^ 2 + (c1.2 - c2.2) ^ 2

/-- Helper for `argminList`: running first-index-of-minimum scan.
`bd` is the current best value, `b` its index, `i` the index of the
head of `ds` in the ambient list. -/
def argminFrom : List ℚ → ℚ → ℕ → ℕ → ℕ
  | [], _, _, b => b
  | d :: ds, bd, i, b =>
      if d < bd then argminFrom ds d (i + 1) i else argminFrom ds bd (i + 1) b

/-- Index of the first minimal element of a list (`numpy.argmin`, and
Python's `min(xrange(n), key=list.__getitem__)`); `0` on the empty
list. -/
def argminList : List ℚ → ℕ
  | [] => 0
  | d :: ds => argminFrom ds d 1 0

/-- The exhaustive cluster-assignment strategy
`sub_coordinates_to_clusters_via_nearest_neighbour`: every
sub-coordinate is matched with the first cluster center of minimal
squared separation. -/
def sub_coordinates_to_clusters_via_nearest_neighbour
    (sub_coordinates cluster_centers : List (ℚ × ℚ)) : List ℕ :=
  sub_coordinates.map fun sc =>
    argminList (cluster_centers.map fun ct => compute_squared_separation sc ct)

/-- `find_index_of_nearest_sparse_coordinate`: a list lookup. -/
def find_index_of_nearest_sparse_coordinate
    (index : ℕ) (coordinate_to_sparse_coordinates_index : List ℕ) : ℕ :=
  coordinate_to_sparse_coordinates_index.getD index 0

/-- `find_index_of_nearest_sparse_cluster`: a list lookup. -/
def find_index_of_nearest_sparse_cluster
    (nearest_sparse_coordinate_index : ℕ) (sparse_coordinates_to_cluster_index : List ℕ) : ℕ :=
  sparse_coordinates_to_cluster_index.getD nearest_sparse_coordinate_index 0

/-- `find_separation_of_sub_coordinate_and_nearest_sparse_cluster`. -/
def find_separation_of_sub_coordinate_and_nearest_sparse_cluster
    (cluster_centers : List (ℚ × ℚ)) (sub_coordinate : ℚ × ℚ) (cluster_index : ℕ) : ℚ :=
  compute_squared_separation sub_coordinate (cluster_centers.getD cluster_index (0, 0))

/-- `find_separation_and_index_of_nearest_neighboring_cluster`: the
neighbor of minimal squared separation from the sub-coordinate,
together with that separation. -/
def find_separation_and_index_of_nearest_neighboring_cluster
    (sub_coordinate : ℚ × ℚ) (cluster_centers : List (ℚ × ℚ))
    (cluster_neighbors : List ℕ) : ℕ × ℚ :=
  let separation_from_neighbor :=
    cluster_neighbors.map fun n =>
      compute_squared_separation sub_coordinate (cluster_centers.getD n (0, 0))
  let closest_separation_index := argminList separation_from_neighbor
  (cluster_neighbors.getD closest_separation_index 0,
   separation_from_neighbor.getD closest_separation_index 0)

/-- The `while True` neighbor walk of
`sub_coordinates_to_clusters_via_sparse_pairs`, with an explicit fuel
counting loop iterations (the source loop is unbounded; `none` means
the loop has not terminated within `fuel` iterations). -/
def clusterWalk (sub_coordinate : ℚ × ℚ) (cluster_centers : List (ℚ × ℚ))
    (cluster_neighbors : List (List ℕ)) : ℕ → ℕ → Option ℕ
  | 0, _ => none
  | fuel + 1, current =>
      let curSep := find_separation_of_sub_coordinate_and_nearest_sparse_cluster
        cluster_centers sub_coordinate current
      let next := find_separation_and_index_of_nearest_neighboring_cluster
        sub_coordinate cluster_centers (cluster_neighbors.getD current [])
      if curSep < next.2 then some current
      else clusterWalk sub_coordinate cluster_centers cluster_neighbors fuel next.1

/-- The accelerated cluster-assignment strategy
`sub_coordinates_to_clusters_via_sparse_pairs`: each sub-coordinate
starts from the cluster of its nearest sparse coordinate and walks to
the locally closest cluster through the adjacency lists. -/
def sub_coordinates_to_clusters_via_sparse_pairs
    (fuel : ℕ) (sub_coordinates cluster_centers : List (ℚ × ℚ))
    (cluster_neighbors : List (List ℕ))
    (sub_coordinate_to_sparse_coordinate_index sparse_coordinate_to_cluster_index : List ℕ) :
    List (Option ℕ) :=
  (List.range sub_coordinates.length).map fun i =>
    clusterWalk (sub_coordinates.getD i (0, 0)) cluster_centers cluster_neighbors fuel
      (find_index_of_nearest_sparse_cluster
        (find_index_of_nearest_sparse_coordinate i sub_coordinate_to_sparse_coordinate_index)
        sparse_coordinate_to_cluster_index)

/-- Squared separation of a sub-coordinate from the cluster center of
a given index (abbreviation used throughout the proofs). -/
def sep (sc : ℚ × ℚ) (cluster_centers : List (ℚ × ℚ)) (c : ℕ) : ℚ :=
  compute_squared_separation sc (cluster_centers.getD c (0, 0))

/-- Number of cluster centers strictly closer to `sc` than cluster `c`
(the termination measure of the neighbor walk). -/
def closerCount (sc : ℚ × ℚ) (cluster_centers : List (ℚ × ℚ)) (c : ℕ) : ℕ :=
  ((Finset.range cluster_centers.length).filter
    (fun k => sep sc cluster_centers k < sep sc cluster_centers c)).card

/-- Well-formedness of the adjacency lists over `cluster_centers`:
every cluster has a nonempty neighbor list of in-range indices and is
not its own neighbor (all true of Voronoi adjacency on two or more
cells). -/
def WellFormedNeighbors (cluster_centers : List (ℚ × ℚ))
    (cluster_neighbors : List (List ℕ)) : Prop :=
  ∀ c < cluster_centers.length,
    cluster_neighbors.getD c [] ≠ [] ∧
    (∀ n ∈ cluster_neighbors.getD c [], n < cluster_centers.length) ∧
    c ∉ cluster_neighbors.getD c []

/-- The local-to-global property of Voronoi/Delaunay adjacency: from
any cluster that is not nearest to a query point, some adjacency
neighbor is strictly closer to the point.  This is the property of the
Voronoi-derived neighbor lists that makes the neighbor walk exact. -/
def DelaunayProperty (cluster_centers : List (ℚ × ℚ))
    (cluster_neighbors : List (List ℕ)) : Prop :=
  ∀ (p : ℚ × ℚ), ∀ c < cluster_centers.length,
    (∃ k < cluster_centers.length, sep p cluster_centers k < sep p cluster_centers c) →
    ∃ n ∈ cluster_neighbors.getD c [], sep p cluster_centers n < sep p cluster_centers c

/-- No two distinct cluster centers are at the same squared separation
from `sc` (absence of ties). -/
def NoTies (sc : ℚ × ℚ) (cluster_centers : List (ℚ × ℚ)) : Prop :=
  ∀ a < cluster_centers.length, ∀ b < cluster_centers.length, a ≠ b →
    sep sc cluster_centers a ≠ sep sc cluster_centers b

lemma drop_eq_getD_cons {α : Type} (d : α) :
    ∀ (l : List α) (n : ℕ), n < l.length → l.drop n = l.getD n d :: l.drop (n + 1) := by
  intro l
  induction l with
  | nil => intro n h; simp at h
  | cons a t ih =>
      intro n h
      cases n with
      | zero => simp [List.getD]
      | succ m =>
          have hm : m < t.length := by simpa using h
          simpa [List.getD_cons_succ] using ih m hm

lemma argminFrom_spec_aux (l : List ℚ) (fuel : ℕ) :
    ∀ (n : ℕ) (bd : ℚ) (b : ℕ), l.length - n ≤ fuel →
      b < l.length → n ≤ l.length → bd = l.getD b 0 →
      argminFrom (l.drop n) bd n b < l.length ∧
      l.getD (argminFrom (l.drop n) bd n b) 0 ≤ bd ∧
      ∀ k, n ≤ k → k < l.length →
        l.getD (argminFrom (l.drop n) bd n b) 0 ≤ l.getD k 0 := by
  induction fuel with
  | zero =>
      intro n bd b hfuel hb hnl hbd
      have hnl' : l.length ≤ n := by omega
      have hdrop : l.drop n = [] := List.drop_eq_nil_of_le hnl'
      rw [hdrop]
      refine ⟨hb, le_of_eq hbd.symm, ?_⟩
      intro k hk hkl
      omega
  | succ m ih =>
      intro n bd b hfuel hb hnl hbd
      by_cases hend : l.length ≤ n
      · have hdrop : l.drop n = [] := List.drop_eq_nil_of_le hend
        rw [hdrop]
        refine ⟨hb, le_of_eq hbd.symm, ?_⟩
        intro k hk hkl
        omega
      · have hlt : n < l.length := by omega
        rw [drop_eq_getD_cons 0 l n hlt]
        by_cases hcmp : l.getD n 0 < bd
        · simp only [argminFrom, hcmp, if_pos]
          have hrec := ih (n + 1) (l.getD n 0) n (by omega) hlt (by omega) rfl
          refine ⟨hrec.1, ?_, ?_⟩
          · exact le_trans hrec.2.1 (le_of_lt hcmp)
          · intro k hk hkl
            rcases eq_or_lt_of_le hk with hk' | hk'
            · exact hk' ▸ hrec.2.1
            · exact hrec.2.2 k hk' hkl
        · simp only [argminFrom, hcmp, if_neg, not_false_iff]
          have hrec := ih (n + 1) bd b (by omega) hb (by omega) hbd
          refine ⟨hrec.1, hrec.2.1, ?_⟩
          intro k hk hkl
          rcases eq_or_lt_of_le hk with hk' | hk'
          · subst hk'
            exact le_trans hrec.2.1 (not_lt.mp hcmp)
          · exact hrec.2.2 k hk' hkl

lemma argminFrom_spec (l : List ℚ) (n : ℕ) (bd : ℚ) (b : ℕ)
    (hb : b < l.length) (hnl : n ≤ l.length) (hbd : bd = l.getD b 0) :
    argminFrom (l.drop n) bd n b < l.length ∧
    l.getD (argminFrom (l.drop n) bd n b) 0 ≤ bd ∧
    ∀ k, n ≤ k → k < l.length →
      l.getD (argminFrom (l.drop n) bd n b) 0 ≤ l.getD k 0 :=
  argminFrom_spec_aux l (l.length - n) n bd b le_rfl hb hnl hbd

lemma argminList_spec (l : List ℚ) (hl : l ≠ []) :
    argminList l < l.length ∧
    ∀ k, k < l.length → l.getD (argminList l) 0 ≤ l.getD k 0 := by
  cases l with
  | nil => exact absurd rfl hl
  | cons d ds =>
      have hdrop : (d :: ds).drop 1 = ds := rfl
      have h0 : (0 : ℕ) < (d :: ds).length := by simp
      have hbd : d = (d :: ds).getD 0 0 := rfl
      have h := argminFrom_spec (d :: ds) 1 d 0 h0 (by simp) hbd
      rw [hdrop] at h
      refine ⟨h.1, ?_⟩
      intro k hk
      cases k with
      | zero => exact le_of_le_of_eq h.2.1 hbd
      | succ j => exact h.2.2 (j + 1) (by omega) hk

lemma argminList_eq_of_strict (l : List ℚ) (i : ℕ) (hi : i < l.length)
    (hstrict : ∀ j, j < l.length → j ≠ i → l.getD i 0 < l.getD j 0) :
    argminList l = i := by
  have hl : l ≠ [] := by
    intro h
    rw [h] at hi
    simp at hi
  obtain ⟨hlt, hmin⟩ := argminList_spec l hl
  by_contra hne
  have h1 := hstrict (argminList l) hlt hne
  have h2 := hmin i hi
  exact absurd (lt_of_le_of_lt h2 h1) (lt_irrefl _)

lemma getD_map_lt {α β : Type} (f : α → β) (l : List α) (n : ℕ)
    (h : n < l.length) (d : β) (d0 : α) :
    (l.map f).getD n d = f (l.getD n d0) := by
  rw [List.getD_eq_getElem (l.map f) d (by simpa using h),
      List.getD_eq_getElem l d0 h, List.getElem_map]

lemma closerCount_lt_length (sc : ℚ × ℚ) (cs : List (ℚ × ℚ)) (c : ℕ)
    (hc : c < cs.length) : closerCount sc cs c < cs.length := by
  have hsub : (Finset.range cs.length).filter
      (fun k => sep sc cs k < sep sc cs c) ⊂ Finset.range cs.length := by
    refine (Finset.ssubset_iff_of_subset (Finset.filter_subset _ _)).mpr ?_
    exact ⟨c, Finset.mem_range.mpr hc, by simp⟩
  simpa [closerCount] using Finset.card_lt_card hsub

lemma clusterWalk_localmin (sc : ℚ × ℚ) (cs : List (ℚ × ℚ)) (ns : List (List ℕ))
    (hwf : WellFormedNeighbors cs ns) (hties : NoTies sc cs) :
    ∀ fuel current, current < cs.length → closerCount sc cs current < fuel →
      ∃ c, c < cs.length ∧ clusterWalk sc cs ns fuel current = some c ∧
        ∀ n ∈ ns.getD c [], sep sc cs c < sep sc cs n := by
  intro fuel
  induction fuel with
  | zero => intro current _ h2; omega
  | succ m ih =>
      intro current hcur hcc
      obtain ⟨hne, hbound, hself⟩ := hwf current hcur
      have hlen : (ns.getD current []).length ≠ 0 := by
        simpa [List.length_eq_zero] using hne
      have hseplen : ((ns.getD current []).map
          (fun n => compute_squared_separation sc (cs.getD n (0, 0)))).length
          = (ns.getD current []).length := by simp
      have hsepsne : (ns.getD current []).map
          (fun n => compute_squared_separation sc (cs.getD n (0, 0))) ≠ [] := by
        intro h
        rw [← List.length_eq_zero, hseplen] at h
        exact hlen h
      obtain ⟨halt, hamin⟩ := argminList_spec _ hsepsne
      set a := argminList ((ns.getD current []).map
        (fun n => compute_squared_separation sc (cs.getD n (0, 0)))) with ha
      have halt' : a < (ns.getD current []).length := by
        rw [← hseplen]; exact halt
      set nIdx := (ns.getD current []).getD a 0 with hnIdx
      have hnmem : nIdx ∈ ns.getD current [] := by
        rw [hnIdx, List.getD_eq_getElem _ 0 halt']
        exact List.mem_iff_getElem.mpr ⟨a, halt', rfl⟩
      have hnSep : ((ns.getD current []).map
          (fun n => compute_squared_separation sc (cs.getD n (0, 0)))).getD a 0
          = sep sc cs nIdx := by
        rw [getD_map_lt _ _ a halt' 0 0]
        rfl
      have hwalk : clusterWalk sc cs ns (m + 1) current =
          if sep sc cs current < sep sc cs nIdx then some current
          else clusterWalk sc cs ns m nIdx := by
        show (if find_separation_of_sub_coordinate_and_nearest_sparse_cluster cs sc current <
            (find_separation_and_index_of_nearest_neighboring_cluster sc cs
              (ns.getD current [])).2 then some current
          else clusterWalk sc cs ns m
            (find_separation_and_index_of_nearest_neighboring_cluster sc cs
              (ns.getD current [])).1) = _
        rw [show (find_separation_and_index_of_nearest_neighboring_cluster sc cs
            (ns.getD current [])).2 = sep sc cs nIdx from hnSep]
        rfl
      by_cases hcmp : sep sc cs current < sep sc cs nIdx
      · refine ⟨current, hcur, by rw [hwalk, if_pos hcmp], ?_⟩
        intro n hn
        obtain ⟨k, hk, hkn⟩ := List.mem_iff_getElem.mp hn
        have hk' : k < ((ns.getD current []).map
            (fun n => compute_squared_separation sc (cs.getD n (0, 0)))).length := by
          rw [hseplen]; exact hk
        have hkval : ((ns.getD current []).map
            (fun n => compute_squared_separation sc (cs.getD n (0, 0)))).getD k 0
            = sep sc cs n := by
          rw [getD_map_lt _ _ k hk 0 0, List.getD_eq_getElem _ 0 hk, hkn]
          rfl
        have := hamin k hk'
        rw [hnSep, hkval] at this
        exact lt_of_lt_of_le hcmp this
      · have hnK : nIdx < cs.length := hbound nIdx hnmem
        have hnc : nIdx ≠ current := fun h => hself (h ▸ hnmem)
        have hstrict : sep sc cs nIdx < sep sc cs current := by
          rcases lt_or_eq_of_le (not_lt.mp hcmp) with h | h
          · exact h
          · exact absurd h (hties nIdx hnK current hcur hnc)
        have hmeas : closerCount sc cs nIdx < closerCount sc cs current := by
          apply Finset.card_lt_card
          constructor
          · intro k hk
            simp only [Finset.mem_filter, Finset.mem_range] at hk ⊢
            exact ⟨hk.1, lt_trans hk.2 hstrict⟩
          · intro hsub
            have hmem : nIdx ∈ (Finset.range cs.length).filter
                (fun k => sep sc cs k < sep sc cs current) := by
              simp only [Finset.mem_filter, Finset.mem_range]
              exact ⟨hnK, hstrict⟩
            have := hsub hmem
            simp only [Finset.mem_filter, Finset.mem_range] at this
            exact absurd this.2 (lt_irrefl _)
        obtain ⟨c, hc1, hc2, hc3⟩ := ih nIdx hnK (by omega)
        exact ⟨c, hc1, by rw [hwalk, if_neg hcmp]; exact hc2, hc3⟩

/-- C2 (amended): in a well-formed adjacency graph (nonempty, in-range,
self-loop-free neighbor lists) and for a sub-pixel whose squared
separations from distinct cluster centers are pairwise distinct, the
neighbor walk of `sub_coordinates_to_clusters_via_sparse_pairs`
terminates, taking no more than `cell_count` loop iterations.  (The
implementation itself loops unboundedly and raises no ConvergenceError;
with tied separations the walk need not terminate at all — see the
counterexample.) -/
theorem neighbor_walk_terminates_within_cell_count
    (sc : ℚ × ℚ) (cluster_centers : List (ℚ × ℚ)) (cluster_neighbors : List (List ℕ))
    (hwf : WellFormedNeighbors cluster_centers cluster_neighbors)
    (hties : NoTies sc cluster_centers)
    (start : ℕ) (hstart : start < cluster_centers.length) :
    (clusterWalk sc cluster_centers cluster_neighbors cluster_centers.length start).isSome := by
  obtain ⟨c, _, hw, _⟩ := clusterWalk_localmin sc cluster_centers cluster_neighbors hwf hties
    cluster_centers.length start hstart (closerCount_lt_length sc cluster_centers start hstart)
  rw [hw]
  rfl

/-- C1 (amended): when the adjacency lists are well formed and carry the
Voronoi local-to-global property, and no sub-pixel is equidistant from
two distinct cluster centers, the accelerated strategy (run with
`cell_count` fuel, enough by C2) agrees with the exhaustive strategy on
every sub-pixel, each returning the index of the cluster center at
minimal squared separation. -/
theorem sparse_pairs_matches_nearest_neighbour
    (sub_coordinates cluster_centers sparse_coordinates : List (ℚ × ℚ))
    (cluster_neighbors : List (List ℕ)) (sub_to_sparse : List ℕ)
    (hcc : cluster_centers ≠ [])
    (hwf : WellFormedNeighbors cluster_centers cluster_neighbors)
    (hdel : DelaunayProperty cluster_centers cluster_neighbors)
    (hsp : ∀ i < sub_coordinates.length, sub_to_sparse.getD i 0 < sparse_coordinates.length)
    (hties : ∀ i < sub_coordinates.length, NoTies (sub_coordinates.getD i (0, 0)) cluster_centers) :
    sub_coordinates_to_clusters_via_sparse_pairs cluster_centers.length
        sub_coordinates cluster_centers cluster_neighbors sub_to_sparse
        (sub_coordinates_to_clusters_via_nearest_neighbour sparse_coordinates cluster_centers)
      = (sub_coordinates_to_clusters_via_nearest_neighbour sub_coordinates cluster_centers).map
          some := by
  apply List.ext_getElem
  · simp [sub_coordinates_to_clusters_via_sparse_pairs,
      sub_coordinates_to_clusters_via_nearest_neighbour]
  intro i h1 h2
  have hi : i < sub_coordinates.length := by
    simpa [sub_coordinates_to_clusters_via_sparse_pairs] using h1
  have hKpos : 0 < cluster_centers.length := List.length_pos.mpr hcc
  set sc := sub_coordinates.getD i (0, 0) with hsc
  -- the left side is the walk started from the sparse assignment
  have hL : (sub_coordinates_to_clusters_via_sparse_pairs cluster_centers.length
      sub_coordinates cluster_centers cluster_neighbors sub_to_sparse
      (sub_coordinates_to_clusters_via_nearest_neighbour sparse_coordinates cluster_centers))[i]
      = clusterWalk sc cluster_centers cluster_neighbors cluster_centers.length
        (find_index_of_nearest_sparse_cluster
          (find_index_of_nearest_sparse_coordinate i sub_to_sparse)
          (sub_coordinates_to_clusters_via_nearest_neighbour sparse_coordinates cluster_centers)) := by
    simp only [sub_coordinates_to_clusters_via_sparse_pairs, List.getElem_map,
      List.getElem_range]
  -- the start index is in range
  have hstart : find_index_of_nearest_sparse_cluster
      (find_index_of_nearest_sparse_coordinate i sub_to_sparse)
      (sub_coordinates_to_clusters_via_nearest_neighbour sparse_coordinates cluster_centers)
      < cluster_centers.length := by
    have hj : sub_to_sparse.getD i 0 < sparse_coordinates.length := hsp i hi
    have hmapne : cluster_centers.map
        (fun ct => compute_squared_separation (sparse_coordinates.getD (sub_to_sparse.getD i 0) (0, 0)) ct) ≠ [] := by
      intro h
      exact hcc (List.map_eq_nil_iff.mp h)
    have := (argminList_spec _ hmapne).1
    rw [List.length_map] at this
    show (sub_coordinates_to_clusters_via_nearest_neighbour sparse_coordinates
        cluster_centers).getD (sub_to_sparse.getD i 0) 0 < cluster_centers.length
    rw [sub_coordinates_to_clusters_via_nearest_neighbour,
      getD_map_lt _ _ _ hj 0 (0, 0)]
    exact this
  obtain ⟨c, hcK, heval, hloc⟩ := clusterWalk_localmin sc cluster_centers cluster_neighbors
    hwf (hties i hi) cluster_centers.length _ hstart
    (closerCount_lt_length sc cluster_centers _ hstart)
  -- `c` is the strict global minimiser
  have hglobal : ∀ k < cluster_centers.length, k ≠ c →
      sep sc cluster_centers c < sep sc cluster_centers k := by
    intro k hkK hkc
    rcases lt_trichotomy (sep sc cluster_centers k) (sep sc cluster_centers c) with h | h | h
    · obtain ⟨n, hn, hnlt⟩ := hdel sc c hcK ⟨k, hkK, h⟩
      exact absurd hnlt (not_lt.mpr (le_of_lt (hloc n hn)))
    · exact absurd h (hties i hi k hkK c hcK hkc)
    · exact h
  -- therefore the exhaustive argmin is `c` as well
  have hR : argminList (cluster_centers.map
      (fun ct => compute_squared_separation sc ct)) = c := by
    apply argminList_eq_of_strict
    · rw [List.length_map]
      exact hcK
    · intro j hj hjc
      rw [List.length_map] at hj
      rw [getD_map_lt _ _ _ hj 0 (0, 0), getD_map_lt _ _ _ hcK 0 (0, 0)]
      exact hglobal j hj hjc
  have hR2 : ((sub_coordinates_to_clusters_via_nearest_neighbour sub_coordinates
      cluster_centers).map some)[i]
      = some (argminList (cluster_centers.map
          (fun ct => compute_squared_separation sc ct))) := by
    simp only [sub_coordinates_to_clusters_via_nearest_neighbour, List.getElem_map]
    rw [hsc, List.getD_eq_getElem _ _ hi]
  rw [hL, heval, hR2, hR]

lemma delaunay_of_complete2 (c0 c1 : ℚ × ℚ) :
    DelaunayProperty [c0, c1] [[1], [0]] := by
  intro p c hc hk
  obtain ⟨k, hkK, hlt⟩ := hk
  simp only [List.length_cons, List.length_nil] at hc hkK
  interval_cases c <;> interval_cases k <;>
    first
      | exact absurd hlt (lt_irrefl _)
      | exact ⟨_, by decide, hlt⟩

lemma delaunay_of_complete3 (c0 c1 c2 : ℚ × ℚ) :
    DelaunayProperty [c0, c1, c2] [[1, 2], [0, 2], [0, 1]] := by
  intro p c hc hk
  obtain ⟨k, hkK, hlt⟩ := hk
  simp only [List.length_cons, List.length_nil] at hc hkK
  interval_cases c <;> interval_cases k <;>
    first
      | exact absurd hlt (lt_irrefl _)
      | exact ⟨_, by decide, hlt⟩

lemma noTies_two_centers : NoTies (1, 0) [(0, 0), (4, 0)] := by
  intro a ha b hb hab
  simp only [List.length_cons, List.length_nil] at ha hb
  interval_cases a <;> interval_cases b <;>
    first
      | exact absurd rfl hab
      | norm_num [sep, compute_squared_separation, List.getD]

/-- Witness for the C2 theorem at a concrete two-cell instance. -/
theorem neighbor_walk_terminates_within_cell_count_witness :
    NoTies (1, 0) [(0, 0), (4, 0)] ∧
    (clusterWalk (1, 0) [(0, 0), (4, 0)] [[1], [0]] 2 0).isSome :=
  ⟨noTies_two_centers,
    neighbor_walk_terminates_within_cell_count (1, 0) [(0, 0), (4, 0)] [[1], [0]]
      (by unfold WellFormedNeighbors; decide) noTies_two_centers 0 (by decide)⟩

/-- Witness for the C1 theorem at a concrete two-cell instance. -/
theorem sparse_pairs_matches_nearest_neighbour_witness :
    DelaunayProperty [(0, 0), (4, 0)] [[1], [0]] ∧
    sub_coordinates_to_clusters_via_sparse_pairs 2 [(1, 0)] [(0, 0), (4, 0)] [[1], [0]] [0]
        (sub_coordinates_to_clusters_via_nearest_neighbour [(0, 0)] [(0, 0), (4, 0)])
      = (sub_coordinates_to_clusters_via_nearest_neighbour [(1, 0)] [(0, 0), (4, 0)]).map some :=
  ⟨delaunay_of_complete2 _ _,
    sparse_pairs_matches_nearest_neighbour [(1, 0)] [(0, 0), (4, 0)] [(0, 0)] [[1], [0]] [0]
      (by simp) (by unfold WellFormedNeighbors; decide) (delaunay_of_complete2 _ _) (by decide)
      (by
        intro i hi
        simp only [List.length_cons, List.length_nil] at hi
        interval_cases i
        exact noTies_two_centers)⟩

lemma walkA_step1 (f : ℕ) :
    clusterWalk (1, 0) [(0, 0), (2, 0), (1, 5)] [[1, 2], [0, 2], [0, 1]] (f + 1) 1
      = clusterWalk (1, 0) [(0, 0), (2, 0), (1, 5)] [[1, 2], [0, 2], [0, 1]] f 0 := by
  rw [clusterWalk]
  norm_num [find_separation_of_sub_coordinate_and_nearest_sparse_cluster,
    find_separation_and_index_of_nearest_neighboring_cluster, compute_squared_separation,
    argminList, argminFrom, List.getD]

lemma walkA_step0 (f : ℕ) :
    clusterWalk (1, 0) [(0, 0), (2, 0), (1, 5)] [[1, 2], [0, 2], [0, 1]] (f + 1) 0
      = clusterWalk (1, 0) [(0, 0), (2, 0), (1, 5)] [[1, 2], [0, 2], [0, 1]] f 1 := by
  rw [clusterWalk]
  norm_num [find_separation_of_sub_coordinate_and_nearest_sparse_cluster,
    find_separation_and_index_of_nearest_neighboring_cluster, compute_squared_separation,
    argminList, argminFrom, List.getD]

lemma walkA_none (f : ℕ) :
    clusterWalk (1, 0) [(0, 0), (2, 0), (1, 5)] [[1, 2], [0, 2], [0, 1]] f 1 = none ∧
    clusterWalk (1, 0) [(0, 0), (2, 0), (1, 5)] [[1, 2], [0, 2], [0, 1]] f 0 = none := by
  induction f with
  | zero => exact ⟨rfl, rfl⟩
  | succ g ih => exact ⟨by rw [walkA_step1]; exact ih.2, by rw [walkA_step0]; exact ih.1⟩

/-- C2 counterexample: a well-formed, genuinely Voronoi-derived
(complete, symmetric, self-loop-free) adjacency over three
non-collinear centers, with a sub-pixel equidistant from the two
nearest centers, makes the walk oscillate between them: it has not
terminated after cell_count = 3 iterations, nor after 1000.  (The
source's `while True` also has no iteration bound and no
ConvergenceError.) -/
theorem neighbor_walk_nontermination_counterexample :
    WellFormedNeighbors [(0, 0), (2, 0), (1, 5)] [[1, 2], [0, 2], [0, 1]] ∧
    DelaunayProperty [(0, 0), (2, 0), (1, 5)] [[1, 2], [0, 2], [0, 1]] ∧
    clusterWalk (1, 0) [(0, 0), (2, 0), (1, 5)] [[1, 2], [0, 2], [0, 1]] 3 1 = none ∧
    clusterWalk (1, 0) [(0, 0), (2, 0), (1, 5)] [[1, 2], [0, 2], [0, 1]] 1000 1 = none :=
  ⟨by unfold WellFormedNeighbors; decide, delaunay_of_complete3 _ _ _, (walkA_none 3).1,
    (walkA_none 1000).1⟩

lemma walkB_step1 (f : ℕ) :
    clusterWalk (2, 0) [(0, 0), (4, 0), (2, 6)] [[1, 2], [0, 2], [0, 1]] (f + 1) 1
      = clusterWalk (2, 0) [(0, 0), (4, 0), (2, 6)] [[1, 2], [0, 2], [0, 1]] f 0 := by
  rw [clusterWalk]
  norm_num [find_separation_of_sub_coordinate_and_nearest_sparse_cluster,
    find_separation_and_index_of_nearest_neighboring_cluster, compute_squared_separation,
    argminList, argminFrom, List.getD]

lemma walkB_step0 (f : ℕ) :
    clusterWalk (2, 0) [(0, 0), (4, 0), (2, 6)] [[1, 2], [0, 2], [0, 1]] (f + 1) 0
      = clusterWalk (2, 0) [(0, 0), (4, 0), (2, 6)] [[1, 2], [0, 2], [0, 1]] f 1 := by
  rw [clusterWalk]
  norm_num [find_separation_of_sub_coordinate_and_nearest_sparse_cluster,
    find_separation_and_index_of_nearest_neighboring_cluster, compute_squared_separation,
    argminList, argminFrom, List.getD]

lemma walkB_none (f : ℕ) :
    clusterWalk (2, 0) [(0, 0), (4, 0), (2, 6)] [[1, 2], [0, 2], [0, 1]] f 1 = none ∧
    clusterWalk (2, 0) [(0, 0), (4, 0), (2, 6)] [[1, 2], [0, 2], [0, 1]] f 0 = none := by
  induction f with
  | zero => exact ⟨rfl, rfl⟩
  | succ g ih => exact ⟨by rw [walkB_step1]; exact ih.2, by rw [walkB_step0]; exact ih.1⟩

lemma sparse_assignment_B :
    sub_coordinates_to_clusters_via_nearest_neighbour [(4, 0)] [(0, 0), (4, 0), (2, 6)]
      = [1] := by
  norm_num [sub_coordinates_to_clusters_via_nearest_neighbour, argminList, argminFrom,
    compute_squared_separation]

lemma sparse_pairs_B (fuel : ℕ) :
    sub_coordinates_to_clusters_via_sparse_pairs fuel [(2, 0)] [(0, 0), (4, 0), (2, 6)]
      [[1, 2], [0, 2], [0, 1]] [0]
      (sub_coordinates_to_clusters_via_nearest_neighbour [(4, 0)] [(0, 0), (4, 0), (2, 6)])
      = [clusterWalk (2, 0) [(0, 0), (4, 0), (2, 6)] [[1, 2], [0, 2], [0, 1]] fuel 1] := by
  rw [sparse_assignment_B]
  simp [sub_coordinates_to_clusters_via_sparse_pairs, find_index_of_nearest_sparse_cluster,
    find_index_of_nearest_sparse_coordinate, List.range_succ]

/-- C1 counterexample: on a well-formed Voronoi-derived adjacency over
three non-collinear centers, a sub-pixel equidistant from the two
nearest centers makes the accelerated strategy loop forever (no answer
after cell_count = 3 iterations, nor after 1000), while the exhaustive
strategy returns cluster 0; the sparse input is itself obtained by the
exhaustive strategy, as required. -/
theorem sparse_pairs_mismatch_counterexample :
    WellFormedNeighbors [(0, 0), (4, 0), (2, 6)] [[1, 2], [0, 2], [0, 1]] ∧
    DelaunayProperty [(0, 0), (4, 0), (2, 6)] [[1, 2], [0, 2], [0, 1]] ∧
    sub_coordinates_to_clusters_via_nearest_neighbour [(2, 0)] [(0, 0), (4, 0), (2, 6)]
      = [0] ∧
    sub_coordinates_to_clusters_via_sparse_pairs 3 [(2, 0)] [(0, 0), (4, 0), (2, 6)]
      [[1, 2], [0, 2], [0, 1]] [0]
      (sub_coordinates_to_clusters_via_nearest_neighbour [(4, 0)] [(0, 0), (4, 0), (2, 6)])
      = [none] ∧
    sub_coordinates_to_clusters_via_sparse_pairs 1000 [(2, 0)] [(0, 0), (4, 0), (2, 6)]
      [[1, 2], [0, 2], [0, 1]] [0]
      (sub_coordinates_to_clusters_via_nearest_neighbour [(4, 0)] [(0, 0), (4, 0), (2, 6)])
      = [none] := by
  refine ⟨by unfold WellFormedNeighbors; decide, delaunay_of_complete3 _ _ _, ?_, ?_, ?_⟩
  · norm_num [sub_coordinates_to_clusters_via_nearest_neighbour, argminList, argminFrom,
      compute_squared_separation]
  · rw [sparse_pairs_B, (walkB_none 3).1]
  · rw [sparse_pairs_B, (walkB_none 1000).1]

/-- The mapping matrix of `MappingMatrix.__new__` in
`auto_lens/analysis.py`: starting from zeros of shape
[source_pixel_total × image_pixel_total], each sub image-pixel `i` of
the `image_pixel_total * sub_grid_size ^ 2` many sub-pixels adds
`(1.0/sub_grid_size) ** 2` to the entry in row
`sub_image_pixel_to_cluster_index[i]` and column
`sub_image_pixel_to_image_pixel_index[i]`.  The matrix is modelled as
a total function on index pairs; `source_pixel_total` is the declared
number of rows. -/
def MappingMatrix (source_pixel_total image_pixel_total sub_grid_size : ℕ)
    (sub_image_pixel_to_cluster_index sub_image_pixel_to_image_pixel_index : List ℕ) :
    ℕ → ℕ → ℚ :=
  (List.range (image_pixel_total * sub_grid_size ^ 2)).foldl
    (fun M i => fun r c =>
      if sub_image_pixel_to_cluster_index.getD i 0 = r ∧
          sub_image_pixel_to_image_pixel_index.getD i 0 = c
      then M r c + (1 / (sub_grid_size : ℚ)) ^ 2
      else M r c)
    (fun _ _ => 0)

lemma mappingFold_apply (cl im : List ℕ) (q : ℚ) :
    ∀ (L : List ℕ) (M0 : ℕ → ℕ → ℚ) (r c : ℕ),
      (L.foldl (fun M i => fun r' c' =>
        if cl.getD i 0 = r' ∧ im.getD i 0 = c' then M r' c' + q else M r' c') M0) r c
      = M0 r c + q * (L.countP (fun i => decide (cl.getD i 0 = r ∧ im.getD i 0 = c))) := by
  intro L
  induction L with
  | nil => intro M0 r c; simp
  | cons i t ih =>
      intro M0 r c
      rw [List.foldl_cons, ih, List.countP_cons]
      by_cases h : cl.getD i 0 = r ∧ im.getD i 0 = c
      · simp only [h, and_self, if_true, decide_eq_true_eq, if_pos h]
        push_cast [h]
        ring
      · simp only [if_neg h, decide_eq_true_eq]
        push_cast [h]
        ring

lemma countP_range_eq_card (T : ℕ) (p : ℕ → Bool) :
    (List.range T).countP p = ((Finset.range T).filter (fun i => p i = true)).card := by
  induction T with
  | zero => rfl
  | succ n ih =>
      rw [List.range_succ, List.countP_append, Finset.range_succ, Finset.filter_insert]
      by_cases h : p n = true
      · rw [if_pos h, Finset.card_insert_of_not_mem (by simp)]
        simp [h, ih]
      · rw [if_neg h]
        simp [h, ih]

lemma mappingMatrix_entry (K P s : ℕ) (cl im : List ℕ) (r c : ℕ) :
    MappingMatrix K P s cl im r c
      = (1 / (s : ℚ)) ^ 2 *
        (((Finset.range (P * s ^ 2)).filter
          (fun i => cl.getD i 0 = r ∧ im.getD i 0 = c)).card : ℚ) := by
  rw [MappingMatrix, mappingFold_apply, countP_range_eq_card]
  simp only [decide_eq_true_eq, zero_add]

/-- C3: for any sub-grid factor `s ≥ 1` and cell count `K ≥ 1`, if all
cluster indices of the `P * s ^ 2` sub-pixels are in `[0, K)` and each
image pixel `j < P` occurs exactly `s ^ 2` times as a parent
image-pixel index, then every column `j < P` of the matrix built by
`MappingMatrix` sums to `1`. -/
theorem mapping_matrix_columns_sum_to_one
    (K P s : ℕ) (cl im : List ℕ) (hK : 1 ≤ K) (hP : 1 ≤ P) (hs : 1 ≤ s)
    (hcl : ∀ i < P * s ^ 2, cl.getD i 0 < K)
    (hcount : ∀ j < P, ((Finset.range (P * s ^ 2)).filter
      (fun i => im.getD i 0 = j)).card = s ^ 2) :
    ∀ j < P, ∑ r in Finset.range K, MappingMatrix K P s cl im r j = 1 := by
  intro j hj
  have hbase : ((Finset.range (P * s ^ 2)).filter (fun i => im.getD i 0 = j)).card
      = ∑ r in Finset.range K,
        ((((Finset.range (P * s ^ 2)).filter (fun i => im.getD i 0 = j)).filter
          (fun i => cl.getD i 0 = r)).card) :=
    Finset.card_eq_sum_card_fiberwise (by
      intro x hx
      simp only [Finset.mem_filter, Finset.mem_range] at hx
      exact Finset.mem_range.mpr (hcl x hx.1))
  have hfib : ((Finset.range (P * s ^ 2)).filter (fun i => im.getD i 0 = j)).card
      = ∑ r in Finset.range K,
        (((Finset.range (P * s ^ 2)).filter
          (fun i => cl.getD i 0 = r ∧ im.getD i 0 = j)).card) := by
    rw [hbase]
    apply Finset.sum_congr rfl
    intro r _
    congr 1
    rw [Finset.filter_filter]
    apply Finset.filter_congr
    intro x _
    simp [and_comm]
  have hsum : ∑ r in Finset.range K, MappingMatrix K P s cl im r j
      = (1 / (s : ℚ)) ^ 2 *
        ∑ r in Finset.range K,
          (((Finset.range (P * s ^ 2)).filter
            (fun i => cl.getD i 0 = r ∧ im.getD i 0 = j)).card : ℚ) := by
    rw [Finset.mul_sum]
    apply Finset.sum_congr rfl
    intro r _
    exact mappingMatrix_entry K P s cl im r j
  rw [hsum]
  rw [show ∑ r in Finset.range K,
      (((Finset.range (P * s ^ 2)).filter
        (fun i => cl.getD i 0 = r ∧ im.getD i 0 = j)).card : ℚ)
      = ((s : ℚ) ^ 2) by
    rw [← Nat.cast_sum, ← hfib, hcount j hj]
    push_cast
    rfl]
  have hs0 : (s : ℚ) ≠ 0 := Nat.cast_ne_zero.mpr (by omega)
  field_simp

/-- C10: with all `P * s ^ 2` cluster and image indices in range, every
entry of the matrix built by `MappingMatrix` is a non-negative integer
multiple of `1/s ^ 2`, and the sum of all entries equals the image-pixel
count `P`. -/
theorem mapping_matrix_total_sum
    (K P s : ℕ) (cl im : List ℕ) (hK : 1 ≤ K) (hP : 1 ≤ P) (hs : 1 ≤ s)
    (hrange : ∀ i < P * s ^ 2, cl.getD i 0 < K ∧ im.getD i 0 < P) :
    (∀ r c : ℕ, ∃ n : ℕ, MappingMatrix K P s cl im r c = (n : ℚ) / s ^ 2) ∧
    ∑ r in Finset.range K, ∑ c in Finset.range P,
      MappingMatrix K P s cl im r c = P := by
  constructor
  · intro r c
    refine ⟨((Finset.range (P * s ^ 2)).filter
      (fun i => cl.getD i 0 = r ∧ im.getD i 0 = c)).card, ?_⟩
    rw [mappingMatrix_entry]
    rw [div_pow, one_pow, div_mul_eq_mul_div, one_mul]
  · have hfib : ((Finset.range (P * s ^ 2)).card : ℚ)
        = ∑ r in Finset.range K, ∑ c in Finset.range P,
          (((Finset.range (P * s ^ 2)).filter
            (fun i => cl.getD i 0 = r ∧ im.getD i 0 = c)).card : ℚ) := by
      have hbase2 : (Finset.range (P * s ^ 2)).card
          = ∑ b in Finset.range K ×ˢ Finset.range P,
            (((Finset.range (P * s ^ 2)).filter
              (fun i => (cl.getD i 0, im.getD i 0) = b)).card) :=
        Finset.card_eq_sum_card_fiberwise (by
          intro x hx
          simp only [Finset.mem_range] at hx
          obtain ⟨h1, h2⟩ := hrange x hx
          exact Finset.mem_product.mpr
            ⟨Finset.mem_range.mpr h1, Finset.mem_range.mpr h2⟩)
      rw [show ((Finset.range (P * s ^ 2)).card : ℚ)
          = (∑ b in Finset.range K ×ˢ Finset.range P,
            (((Finset.range (P * s ^ 2)).filter
              (fun i => (cl.getD i 0, im.getD i 0) = b)).card : ℚ)) from by
        exact_mod_cast hbase2]
      rw [Finset.sum_product]
      apply Finset.sum_congr rfl
      intro r _
      apply Finset.sum_congr rfl
      intro c _
      congr 2
      apply Finset.filter_congr
      intro x _
      simp [Prod.ext_iff]
    have hentry : ∑ r in Finset.range K, ∑ c in Finset.range P,
        MappingMatrix K P s cl im r c
        = (1 / (s : ℚ)) ^ 2 * ∑ r in Finset.range K, ∑ c in Finset.range P,
          (((Finset.range (P * s ^ 2)).filter
            (fun i => cl.getD i 0 = r ∧ im.getD i 0 = c)).card : ℚ) := by
      rw [Finset.mul_sum]
      apply Finset.sum_congr rfl
      intro r _
      rw [Finset.mul_sum]
      apply Finset.sum_congr rfl
      intro c _
      exact mappingMatrix_entry K P s cl im r c
    rw [hentry, ← hfib, Finset.card_range]
    have hs0 : (s : ℚ) ≠ 0 := Nat.cast_ne_zero.mpr (by omega)
    push_cast
    field_simp

/-- Witness for C3 at K = 2, P = 2, s = 1, with cluster indices [0, 1]
and image-pixel indices [0, 1]. -/
theorem mapping_matrix_columns_sum_to_one_witness :
    (∀ j < 2, ((Finset.range (2 * 1 ^ 2)).filter
      (fun i => [0, 1].getD i 0 = j)).card = 1 ^ 2) ∧
    ∀ j < 2, ∑ r in Finset.range 2, MappingMatrix 2 2 1 [0, 1] [0, 1] r j = 1 :=
  ⟨by decide, mapping_matrix_columns_sum_to_one 2 2 1 [0, 1] [0, 1]
    one_le_two one_le_two le_rfl (by decide) (by decide)⟩

/-- Witness for C10 at K = 2, P = 2, s = 1, with cluster indices [0, 1]
and image-pixel indices [0, 1]. -/
theorem mapping_matrix_total_sum_witness :
    (∀ i < 2 * 1 ^ 2, [0, 1].getD i 0 < 2 ∧ [0, 1].getD i 0 < 2) ∧
    ((∀ r c : ℕ, ∃ n : ℕ, MappingMatrix 2 2 1 [0, 1] [0, 1] r c = (n : ℚ) / 1 ^ 2) ∧
      ∑ r in Finset.range 2, ∑ c in Finset.range 2,
        MappingMatrix 2 2 1 [0, 1] [0, 1] r c = ((2 : ℕ) : ℚ)) :=
  ⟨by decide, mapping_matrix_total_sum 2 2 1 [0, 1] [0, 1]
    one_le_two one_le_two le_rfl (by decide)⟩

/-- Elementwise squared regularization weights, `reg_weight` of
`RegularizationMatrix.make_via_pairs`. -/
def regWeight (regularization_weights : List ℚ) (i : ℕ) : ℚ :=
  regularization_weights.getD i 0 ^ 2

/-- The diagonal initialisation loop of `make_via_pairs`:
`matrix[i][i] += no_vertices[i] * reg_weight[i]` for `i` in
`range(dimension)`, over a zero matrix. -/
def regDiag (dimension : ℕ) (regularization_weights : List ℚ) (no_vertices : List ℕ) :
    ℕ → ℕ → ℚ :=
  fun r c =>
    if r = c ∧ r < dimension
    then (no_vertices.getD r 0 : ℚ) * regWeight regularization_weights r
    else 0

/-- One iteration of the pair loop of `make_via_pairs`, reading entry
`(r, c)`: the six source updates
`matrix[p0, p0] += reg_weight[p1]`, `matrix[p1, p1] += reg_weight[p0]`,
`matrix[p0, p1] -= reg_weight[p0]`, `matrix[p1, p0] -= reg_weight[p0]`,
`matrix[p0, p1] -= reg_weight[p1]`, `matrix[p1, p0] -= reg_weight[p1]`. -/
def addAt (M : ℕ → ℕ → ℚ) (i j : ℕ) (v : ℚ) : ℕ → ℕ → ℚ :=
  fun r c => if r = i ∧ c = j then M r c + v else M r c

def pairUpdate (w : List ℚ) (M : ℕ → ℕ → ℚ) (p : ℕ × ℕ) : ℕ → ℕ → ℚ :=
  addAt (addAt (addAt (addAt (addAt (addAt M
    p.1 p.1 (regWeight w p.2))
    p.2 p.2 (regWeight w p.1))
    p.1 p.2 (-regWeight w p.1))
    p.2 p.1 (-regWeight w p.1))
    p.1 p.2 (-regWeight w p.2))
    p.2 p.1 (-regWeight w p.2)

/-- `RegularizationMatrix.make_via_pairs`: the diagonal loop followed by
the pair loop, as a total function on index pairs. -/
def make_via_pairs (dimension : ℕ) (regularization_weights : List ℚ)
    (no_vertices : List ℕ) (pixel_pairs : List (ℕ × ℕ)) : ℕ → ℕ → ℚ :=
  pixel_pairs.foldl (pairUpdate regularization_weights)
    (regDiag dimension regularization_weights no_vertices)

/-- The net contribution of one pair to entry `(r, c)`. -/
def pairDelta (w : List ℚ) (p : ℕ × ℕ) (r c : ℕ) : ℚ :=
  (if r = p.1 ∧ c = p.1 then regWeight w p.2 else 0)
  + (if r = p.2 ∧ c = p.2 then regWeight w p.1 else 0)
  - (if r = p.1 ∧ c = p.2 then regWeight w p.1 + regWeight w p.2 else 0)
  - (if r = p.2 ∧ c = p.1 then regWeight w p.1 + regWeight w p.2 else 0)

lemma pairUpdate_apply (w : List ℚ) (M : ℕ → ℕ → ℚ) (p : ℕ × ℕ) (r c : ℕ) :
    pairUpdate w M p r c = M r c + pairDelta w p r c := by
  unfold pairUpdate pairDelta addAt
  split_ifs <;> ring

lemma make_fold_apply (w : List ℚ) :
    ∀ (L : List (ℕ × ℕ)) (M0 : ℕ → ℕ → ℚ) (r c : ℕ),
      (L.foldl (pairUpdate w) M0) r c
        = M0 r c + (L.map (fun p => pairDelta w p r c)).sum := by
  intro L
  induction L with
  | nil => intro M0 r c; simp
  | cons p t ih =>
      intro M0 r c
      rw [List.foldl_cons, ih, List.map_cons, List.sum_cons, pairUpdate_apply]
      ring

lemma make_via_pairs_apply (dimension : ℕ) (w : List ℚ) (nv : List ℕ)
    (pairs : List (ℕ × ℕ)) (r c : ℕ) :
    make_via_pairs dimension w nv pairs r c
      = regDiag dimension w nv r c + (pairs.map (fun p => pairDelta w p r c)).sum := by
  rw [make_via_pairs, make_fold_apply]

lemma sum_map_ite_eq (f : ℕ × ℕ → ℚ) :
    ∀ (l : List (ℕ × ℕ)), l.Nodup → ∀ p ∈ l,
      ((l.map (fun q => if q = p then f q else 0)).sum = f p) := by
  intro l
  induction l with
  | nil => intro _ p hp; simp at hp
  | cons q t ih =>
      intro hnd p hp
      rw [List.map_cons, List.sum_cons]
      rcases List.mem_cons.mp hp with h | h
      · subst h
        rw [if_pos rfl]
        have hq : p ∉ t := (List.nodup_cons.mp hnd).1
        have hz : (t.map (fun q' => if q' = p then f q' else 0)).sum = 0 := by
          rw [List.sum_eq_zero]
          intro x hx
          obtain ⟨q', hq', hq'x⟩ := List.mem_map.mp hx
          rw [← hq'x]
          rw [if_neg (fun (he : q' = p) => hq (he ▸ hq'))]
        rw [hz]
        ring
      · have hqp : q ≠ p := fun he => (List.nodup_cons.mp hnd).1 (he ▸ h)
        rw [if_neg hqp, ih (List.nodup_cons.mp hnd).2 p h]
        ring

lemma pairDelta_symm (w : List ℚ) (p : ℕ × ℕ) (r c : ℕ) :
    pairDelta w p r c = pairDelta w p c r := by
  by_cases h5 : p.1 = p.2 <;>
    by_cases h1 : r = p.1 <;> by_cases h2 : r = p.2 <;>
    by_cases h3 : c = p.1 <;> by_cases h4 : c = p.2 <;>
    simp [pairDelta, h1, h2, h3, h4, h5, Ne.symm, eq_comm]

lemma make_via_pairs_symm (dimension : ℕ) (w : List ℚ) (nv : List ℕ)
    (pairs : List (ℕ × ℕ)) (r c : ℕ) :
    make_via_pairs dimension w nv pairs r c = make_via_pairs dimension w nv pairs c r := by
  rw [make_via_pairs_apply, make_via_pairs_apply]
  have hd : regDiag dimension w nv r c = regDiag dimension w nv c r := by
    unfold regDiag
    by_cases h : r = c
    · subst h; rfl
    · rw [if_neg (fun hc => h hc.1), if_neg (fun hc => h hc.1.symm)]
  rw [hd]
  congr 1
  exact congrArg List.sum
    (List.map_congr_left (fun p _ => pairDelta_symm w p r c))

/-- C4: with each listed pair strictly sorted (i < j) and no pair listed
twice, the matrix built by `RegularizationMatrix.make_via_pairs` has:
diagonal entries `n[i]*w[i]^2` plus the sum of `w[k]^2` over the listed
pairs in which `i` participates with partner `k`; entries `-(w[i]^2 +
w[j]^2)` at both `(i, j)` and `(j, i)` for every listed pair `(i, j)`;
zero at every other off-diagonal position; and exact symmetry
`H[i][j] = H[j][i]` everywhere. -/
theorem regularization_matrix_entries
    (dimension : ℕ) (w : List ℚ) (nv : List ℕ) (pairs : List (ℕ × ℕ))
    (hsorted : ∀ p ∈ pairs, p.1 < p.2)
    (hnodup : pairs.Nodup) :
    (∀ i < dimension, make_via_pairs dimension w nv pairs i i
        = (nv.getD i 0 : ℚ) * regWeight w i
          + (pairs.map (fun p => if p.1 = i then regWeight w p.2
              else if p.2 = i then regWeight w p.1 else 0)).sum) ∧
    (∀ p ∈ pairs, make_via_pairs dimension w nv pairs p.1 p.2
        = -(regWeight w p.1 + regWeight w p.2) ∧
      make_via_pairs dimension w nv pairs p.2 p.1
        = -(regWeight w p.1 + regWeight w p.2)) ∧
    (∀ i j, i ≠ j → (i, j) ∉ pairs → (j, i) ∉ pairs →
      make_via_pairs dimension w nv pairs i j = 0) ∧
    (∀ i j, make_via_pairs dimension w nv pairs i j
        = make_via_pairs dimension w nv pairs j i) := by
  refine ⟨?_, ?_, ?_, fun i j => make_via_pairs_symm dimension w nv pairs i j⟩
  · -- diagonal entries
    intro i hi
    rw [make_via_pairs_apply]
    have hdiag : regDiag dimension w nv i i = (nv.getD i 0 : ℚ) * regWeight w i := by
      unfold regDiag
      rw [if_pos ⟨rfl, hi⟩]
    rw [hdiag]
    congr 1
    apply congrArg List.sum
    apply List.map_congr_left
    intro p hp
    have hplt := hsorted p hp
    unfold pairDelta
    by_cases h1 : p.1 = i <;> by_cases h2 : p.2 = i
    · omega
    · have h2' : i ≠ p.2 := fun h => h2 h.symm
      simp [h1, h2, h2']
    · have h1' : i ≠ p.1 := fun h => h1 h.symm
      simp [h1, h2, h1']
    · have h1' : i ≠ p.1 := fun h => h1 h.symm
      have h2' : i ≠ p.2 := fun h => h2 h.symm
      simp [h1, h2, h1', h2']
  · -- listed pairs
    intro p hp
    have hplt := hsorted p hp
    have hpoint12 : ∀ q ∈ pairs, pairDelta w q p.1 p.2
        = if q = p then -(regWeight w q.1 + regWeight w q.2) else 0 := by
      intro q hq
      have hqlt := hsorted q hq
      by_cases hqp : q = p
      · subst hqp
        unfold pairDelta
        rw [if_neg (by rintro ⟨a, b⟩; omega), if_neg (by rintro ⟨a, b⟩; omega),
          if_pos ⟨rfl, rfl⟩, if_neg (by rintro ⟨a, b⟩; omega), if_pos rfl]
        ring
      · unfold pairDelta
        rw [if_neg (by rintro ⟨a, b⟩; omega), if_neg (by rintro ⟨a, b⟩; omega),
          if_neg (by rintro ⟨a, b⟩; exact hqp (Prod.ext_iff.mpr ⟨a.symm, b.symm⟩)),
          if_neg (by rintro ⟨a, b⟩; omega), if_neg hqp]
        ring
    have hpoint21 : ∀ q ∈ pairs, pairDelta w q p.2 p.1
        = if q = p then -(regWeight w q.1 + regWeight w q.2) else 0 := by
      intro q hq
      have hqlt := hsorted q hq
      by_cases hqp : q = p
      · subst hqp
        unfold pairDelta
        rw [if_neg (by rintro ⟨a, b⟩; omega), if_neg (by rintro ⟨a, b⟩; omega),
          if_neg (by rintro ⟨a, b⟩; omega), if_pos ⟨rfl, rfl⟩, if_pos rfl]
        ring
      · unfold pairDelta
        rw [if_neg (by rintro ⟨a, b⟩; omega), if_neg (by rintro ⟨a, b⟩; omega),
          if_neg (by rintro ⟨a, b⟩; omega),
          if_neg (by rintro ⟨a, b⟩; exact hqp (Prod.ext_iff.mpr ⟨b.symm, a.symm⟩)),
          if_neg hqp]
        ring
    have hdiag12 : regDiag dimension w nv p.1 p.2 = 0 := by
      unfold regDiag
      exact if_neg (by rintro ⟨a, b⟩; omega)
    have hdiag21 : regDiag dimension w nv p.2 p.1 = 0 := by
      unfold regDiag
      exact if_neg (by rintro ⟨a, b⟩; omega)
    constructor
    · rw [make_via_pairs_apply, hdiag12,
        congrArg List.sum (List.map_congr_left hpoint12),
        sum_map_ite_eq _ pairs hnodup p hp]
      ring
    · rw [make_via_pairs_apply, hdiag21,
        congrArg List.sum (List.map_congr_left hpoint21),
        sum_map_ite_eq _ pairs hnodup p hp]
      ring
  · -- unlisted off-diagonal entries vanish
    intro i j hij hnotij hnotji
    rw [make_via_pairs_apply]
    have hdiag : regDiag dimension w nv i j = 0 := by
      unfold regDiag
      exact if_neg (by rintro ⟨a, b⟩; omega)
    rw [hdiag, zero_add]
    rw [List.sum_eq_zero]
    intro x hx
    obtain ⟨q, hq, hqx⟩ := List.mem_map.mp hx
    rw [← hqx]
    unfold pairDelta
    rw [if_neg (by rintro ⟨a, b⟩; omega), if_neg (by rintro ⟨a, b⟩; omega),
      if_neg (by
        rintro ⟨a, b⟩
        exact hnotij ((Prod.ext_iff.mpr ⟨a, b⟩ : (i, j) = q).symm ▸ hq)),
      if_neg (by
        rintro ⟨a, b⟩
        exact hnotji ((Prod.ext_iff.mpr ⟨b, a⟩ : (j, i) = q).symm ▸ hq))]
    ring

/-- Witness for C4 at dimension 2, unit weights, neighbor counts
[1, 1], and the single pair (0, 1). -/
theorem regularization_matrix_entries_witness :
    (∀ p ∈ [((0 : ℕ), (1 : ℕ))], p.1 < p.2) ∧
    make_via_pairs 2 [1, 1] [1, 1] [((0 : ℕ), (1 : ℕ))] 0 1
      = -(regWeight [1, 1] 0 + regWeight [1, 1] 1) :=
  ⟨by decide, ((regularization_matrix_entries 2 [1, 1] [1, 1] [(0, 1)]
      (by decide) (by decide)).2.1 (0, 1) (by decide)).1⟩

/-- Connectivity of the adjacency pair list over the cells `0..d-1`
(every two cells are joined by a chain of listed pairs). -/
def PairsConnected (d : ℕ) (pairs : List (ℕ × ℕ)) : Prop :=
  ∀ i < d, ∀ j < d,
    Relation.ReflTransGen (fun a b => (a, b) ∈ pairs ∨ (b, a) ∈ pairs) i j

lemma finset_sum_list_sum (s : Finset ℕ) (l : List (ℕ × ℕ)) (g : ℕ → ℕ × ℕ → ℝ) :
    ∑ i in s, (l.map (g i)).sum = (l.map (fun p => ∑ i in s, g i p)).sum := by
  induction l with
  | nil => simp
  | cons p t ih =>
      simp only [List.map_cons, List.sum_cons, Finset.sum_add_distrib, ih]

lemma list_sum_map_add (l : List (ℕ × ℕ)) (f g : ℕ × ℕ → ℝ) :
    (l.map f).sum + (l.map g).sum = (l.map (fun p => f p + g p)).sum := by
  induction l with
  | nil => simp
  | cons p t ih =>
      simp only [List.map_cons, List.sum_cons]
      rw [← ih]
      ring

lemma quad_point (d : ℕ) (x : ℕ → ℝ) (a b : ℕ) (ha : a < d) (hb : b < d) (k : ℝ) :
    ∑ i in Finset.range d, ∑ j in Finset.range d,
      x i * (if i = a ∧ j = b then k else 0) * x j = x a * k * x b := by
  have hinner : ∀ i, ∑ j in Finset.range d, x i * (if i = a ∧ j = b then k else 0) * x j
      = if i = a then x i * k * x b else 0 := by
    intro i
    by_cases hia : i = a
    · have hpt : ∀ j, x i * (if i = a ∧ j = b then k else 0) * x j
          = if j = b then x i * k * x j else 0 := by
        intro j
        by_cases hjb : j = b
        · rw [if_pos ⟨hia, hjb⟩, if_pos hjb, hjb]
        · rw [if_neg (fun hc => hjb hc.2), if_neg hjb]
          ring
      rw [Finset.sum_congr rfl (fun j _ => hpt j),
        Finset.sum_ite_eq' (Finset.range d) b (fun j => x i * k * x j),
        if_pos (Finset.mem_range.mpr hb), if_pos hia]
    · rw [if_neg hia, Finset.sum_eq_zero]
      intro j _
      rw [if_neg (fun hc => hia hc.1)]
      ring
  rw [Finset.sum_congr rfl (fun i _ => hinner i),
    Finset.sum_ite_eq' (Finset.range d) a (fun i => x i * k * x b),
    if_pos (Finset.mem_range.mpr ha)]

lemma quad_diag (d : ℕ) (w : List ℚ) (nv : List ℕ) (x : ℕ → ℝ)
    (hw : ∀ i < d, w.getD i 0 = 1) :
    ∑ i in Finset.range d, ∑ j in Finset.range d,
      x i * (regDiag d w nv i j : ℝ) * x j
      = ∑ i in Finset.range d, (nv.getD i 0 : ℝ) * x i ^ 2 := by
  apply Finset.sum_congr rfl
  intro i hi
  have hid : i < d := Finset.mem_range.mp hi
  have hwi : regWeight w i = 1 := by
    rw [regWeight, hw i hid]
    norm_num
  have hpt : ∀ j, x i * (regDiag d w nv i j : ℝ) * x j
      = if j = i then (nv.getD i 0 : ℝ) * x i ^ 2 else 0 := by
    intro j
    unfold regDiag
    by_cases hji : j = i
    · subst hji
      rw [if_pos ⟨rfl, hid⟩, if_pos rfl, hwi]
      push_cast
      ring
    · rw [if_neg (fun hc => hji hc.1.symm), if_neg hji]
      push_cast
      ring
  rw [Finset.sum_congr rfl (fun j _ => hpt j),
    Finset.sum_ite_eq' (Finset.range d) i (fun _ => (nv.getD i 0 : ℝ) * x i ^ 2),
    if_pos hi]

lemma diag_count_to_pairs (d : ℕ) (x : ℕ → ℝ) :
    ∀ (pairs : List (ℕ × ℕ)), (∀ p ∈ pairs, p.1 < p.2 ∧ p.2 < d) →
      ∑ i in Finset.range d,
        ((pairs.countP (fun p => p.1 = i || p.2 = i) : ℕ) : ℝ) * x i ^ 2
        = (pairs.map (fun p => x p.1 ^ 2 + x p.2 ^ 2)).sum := by
  intro pairs
  induction pairs with
  | nil => intro _; simp
  | cons q t ih =>
      intro hb
      have hq := hb q (List.mem_cons_self q t)
      have hq1d : q.1 < d := lt_trans hq.1 hq.2
      rw [List.map_cons, List.sum_cons, ← ih (fun p hp => hb p (List.mem_cons_of_mem _ hp))]
      have hsplit : ∀ i, (((q :: t).countP (fun p => p.1 = i || p.2 = i) : ℕ) : ℝ)
          = ((t.countP (fun p => p.1 = i || p.2 = i) : ℕ) : ℝ)
            + (if q.1 = i then (1 : ℝ) else 0) + (if q.2 = i then (1 : ℝ) else 0) := by
        intro i
        rw [List.countP_cons]
        by_cases h1 : q.1 = i <;> by_cases h2 : q.2 = i
        · exfalso
          omega
        · simp [h1, h2]
        · simp [h1, h2]
        · simp [h1, h2]
      have hterm : ∀ i, (((q :: t).countP (fun p => p.1 = i || p.2 = i) : ℕ) : ℝ) * x i ^ 2
          = ((t.countP (fun p => p.1 = i || p.2 = i) : ℕ) : ℝ) * x i ^ 2
            + (if q.1 = i then x i ^ 2 else 0) + (if q.2 = i then x i ^ 2 else 0) := by
        intro i
        rw [hsplit i]
        by_cases h1 : q.1 = i <;> by_cases h2 : q.2 = i <;> simp [h1, h2] <;> ring
      rw [Finset.sum_congr rfl (fun i _ => hterm i)]
      rw [Finset.sum_add_distrib, Finset.sum_add_distrib]
      have e1 : ∑ i in Finset.range d, (if q.1 = i then x i ^ 2 else 0) = x q.1 ^ 2 := by
        rw [Finset.sum_ite_eq (Finset.range d) q.1 (fun i => x i ^ 2),
          if_pos (Finset.mem_range.mpr hq1d)]
      have e2 : ∑ i in Finset.range d, (if q.2 = i then x i ^ 2 else 0) = x q.2 ^ 2 := by
        rw [Finset.sum_ite_eq (Finset.range d) q.2 (fun i => x i ^ 2),
          if_pos (Finset.mem_range.mpr hq.2)]
      rw [e1, e2]
      ring

lemma quad_pairDelta (d : ℕ) (w : List ℚ) (x : ℕ → ℝ) (p : ℕ × ℕ)
    (h1 : p.1 < d) (h2 : p.2 < d) (hne : p.1 ≠ p.2)
    (hw1 : regWeight w p.1 = 1) (hw2 : regWeight w p.2 = 1) :
    ∑ i in Finset.range d, ∑ j in Finset.range d,
      x i * (pairDelta w p i j : ℝ) * x j
      = x p.1 ^ 2 + x p.2 ^ 2 - 4 * (x p.1 * x p.2) := by
  have hexp : ∀ i j, x i * (pairDelta w p i j : ℝ) * x j
      = x i * (if i = p.1 ∧ j = p.1 then (1 : ℝ) else 0) * x j
        + x i * (if i = p.2 ∧ j = p.2 then (1 : ℝ) else 0) * x j
        - x i * (if i = p.1 ∧ j = p.2 then (2 : ℝ) else 0) * x j
        - x i * (if i = p.2 ∧ j = p.1 then (2 : ℝ) else 0) * x j := by
    intro i j
    unfold pairDelta
    rw [hw1, hw2]
    push_cast [apply_ite (fun q : ℚ => (q : ℝ))]
    split_ifs <;> ring
  rw [Finset.sum_congr rfl (fun i _ => Finset.sum_congr rfl (fun j _ => hexp i j))]
  simp only [Finset.sum_add_distrib, Finset.sum_sub_distrib]
  rw [quad_point d x p.1 p.1 h1 h1 1, quad_point d x p.2 p.2 h2 h2 1,
    quad_point d x p.1 p.2 h1 h2 2, quad_point d x p.2 p.1 h2 h1 2]
  ring

/-- C5: for uniform unit regularization weights and a connected
adjacency pair list (pairs sorted, in range) with consistent neighbor
counts (n[i] = number of listed pairs containing i), the matrix built
by `make_via_pairs` is symmetric and positive semi-definite: for every
real vector x, the quadratic form is non-negative (it equals twice the
sum of (x i - x j)^2 over the listed pairs). -/
theorem regularization_matrix_psd
    (d : ℕ) (w : List ℚ) (nv : List ℕ) (pairs : List (ℕ × ℕ))
    (hw : ∀ i < d, w.getD i 0 = 1)
    (hpairs : ∀ p ∈ pairs, p.1 < p.2 ∧ p.2 < d)
    (hcount : ∀ i < d, nv.getD i 0 = pairs.countP (fun p => p.1 = i || p.2 = i))
    (hconn : PairsConnected d pairs) :
    (∀ i j, make_via_pairs d w nv pairs i j = make_via_pairs d w nv pairs j i) ∧
    ∀ x : ℕ → ℝ, 0 ≤ ∑ i in Finset.range d, ∑ j in Finset.range d,
      x i * (make_via_pairs d w nv pairs i j : ℝ) * x j := by
  refine ⟨fun i j => make_via_pairs_symm d w nv pairs i j, ?_⟩
  intro x
  have hsplit : ∀ i j,
      x i * (make_via_pairs d w nv pairs i j : ℝ) * x j
      = x i * (regDiag d w nv i j : ℝ) * x j
        + (pairs.map (fun p => x i * (pairDelta w p i j : ℝ) * x j)).sum := by
    intro i j
    rw [make_via_pairs_apply]
    have hcast : (((pairs.map (fun p => pairDelta w p i j)).sum : ℚ) : ℝ)
        = (pairs.map (fun p => ((pairDelta w p i j : ℚ) : ℝ))).sum := by
      simp
      rfl
    rw [Rat.cast_add, hcast, mul_add, add_mul]
    congr 1
    rw [← List.sum_map_mul_left, ← List.sum_map_mul_right]
  have htotal : ∑ i in Finset.range d, ∑ j in Finset.range d,
      x i * (make_via_pairs d w nv pairs i j : ℝ) * x j
      = (∑ i in Finset.range d, ∑ j in Finset.range d,
          x i * (regDiag d w nv i j : ℝ) * x j)
        + (pairs.map (fun p => ∑ i in Finset.range d, ∑ j in Finset.range d,
            x i * (pairDelta w p i j : ℝ) * x j)).sum := by
    rw [Finset.sum_congr rfl (fun i _ => Finset.sum_congr rfl (fun j _ => hsplit i j))]
    rw [Finset.sum_congr rfl (fun i _ => Finset.sum_add_distrib), Finset.sum_add_distrib]
    congr 1
    rw [Finset.sum_congr rfl (fun i _ =>
      finset_sum_list_sum (Finset.range d) pairs
        (fun j p => x i * (pairDelta w p i j : ℝ) * x j))]
    exact finset_sum_list_sum (Finset.range d) pairs
      (fun i p => ∑ j in Finset.range d, x i * (pairDelta w p i j : ℝ) * x j)
  rw [htotal]
  have hdiag : ∑ i in Finset.range d, ∑ j in Finset.range d,
      x i * (regDiag d w nv i j : ℝ) * x j
      = (pairs.map (fun p => x p.1 ^ 2 + x p.2 ^ 2)).sum := by
    rw [quad_diag d w nv x hw]
    rw [Finset.sum_congr rfl (fun i hi => by
      rw [hcount i (Finset.mem_range.mp hi)])]
    exact diag_count_to_pairs d x pairs hpairs
  have hpair : (pairs.map (fun p => ∑ i in Finset.range d, ∑ j in Finset.range d,
      x i * (pairDelta w p i j : ℝ) * x j)).sum
      = (pairs.map (fun p => x p.1 ^ 2 + x p.2 ^ 2 - 4 * (x p.1 * x p.2))).sum := by
    apply congrArg List.sum
    apply List.map_congr_left
    intro p hp
    have h12 := hpairs p hp
    have h1d : p.1 < d := lt_trans h12.1 h12.2
    have hw1 : regWeight w p.1 = 1 := by
      rw [regWeight, hw p.1 h1d]
      norm_num
    have hw2 : regWeight w p.2 = 1 := by
      rw [regWeight, hw p.2 h12.2]
      norm_num
    exact quad_pairDelta d w x p h1d h12.2 (Nat.ne_of_lt h12.1) hw1 hw2
  rw [hdiag, hpair, list_sum_map_add]
  apply List.sum_nonneg
  intro v hv
  obtain ⟨p, _, hpv⟩ := List.mem_map.mp hv
  rw [← hpv]
  nlinarith [sq_nonneg (x p.1 - x p.2)]

/-- Witness for C5 at dimension 2, unit weights, neighbor counts
[1, 1], and the single (connected) pair (0, 1). -/
theorem regularization_matrix_psd_witness :
    PairsConnected 2 [((0 : ℕ), (1 : ℕ))] ∧
    0 ≤ ∑ i in Finset.range 2, ∑ j in Finset.range 2,
      (fun _ => (1 : ℝ)) i * (make_via_pairs 2 [1, 1] [1, 1] [((0 : ℕ), (1 : ℕ))] i j : ℝ)
        * (fun _ => (1 : ℝ)) j := by
  have hconn : PairsConnected 2 [((0 : ℕ), (1 : ℕ))] := by
    intro i hi j hj
    interval_cases i <;> interval_cases j
    · exact Relation.ReflTransGen.refl
    · exact Relation.ReflTransGen.single (Or.inl (by decide))
    · exact Relation.ReflTransGen.single (Or.inr (by decide))
    · exact Relation.ReflTransGen.refl
  refine ⟨hconn, ?_⟩
  exact (regularization_matrix_psd 2 [1, 1] [1, 1] [(0, 1)]
    (by intro i hi; interval_cases i <;> rfl)
    (by decide) (by decide) hconn).2 (fun _ => (1 : ℝ))

/-- `evidence_from_inversion_terms` from
`autolens/lens/lens_fit/lens_image_fit.py`. -/
noncomputable def evidence_from_inversion_terms
    (chi_squared regularization_term log_curvature_regularization_term
      log_regularization_term noise_normalization : ℝ) : ℝ :=
  -0.5 * (chi_squared + regularization_term + log_curvature_regularization_term
    - log_regularization_term + noise_normalization)

/-- C6: the evidence equals -0.5 times (chi_squared + regularization
term + log|F+H| - log|H| + noise normalization): the log-determinant of
the regularization matrix is subtracted and every other term added. -/
theorem evidence_from_inversion_terms_eq
    (chi_squared regularization_term log_curvature_regularization_term
      log_regularization_term noise_normalization : ℝ) :
    evidence_from_inversion_terms chi_squared regularization_term
      log_curvature_regularization_term log_regularization_term noise_normalization
      = -0.5 * (chi_squared + regularization_term + log_curvature_regularization_term
        - log_regularization_term + noise_normalization) := rfl

/-- Modelled from the spec: `coordinates_to_centre` of the `profile`
module imported by `auto_lens/analysis.py` is not in the source tree;
spec section 4.1 defines the geometry relative to an arbitrary centre
(dx, dy are the centre-shifted components). -/
def coordinates_to_centre (centre coordinates : ℝ × ℝ) : ℝ × ℝ :=
  (coordinates.1 - centre.1, coordinates.2 - centre.2)

/-- Modelled from the spec: `coordinates_to_radius` of the missing
`profile` module; spec section 4.1: radius(center, point) =
sqrt(dx^2 + dy^2). -/
noncomputable def coordinates_to_radius (centre coordinates : ℝ × ℝ) : ℝ :=
  Real.sqrt ((coordinates.1 - centre.1) ^ 2 + (coordinates.2 - centre.2) ^ 2)

/-- Two-argument arc tangent (`numpy.arctan2`), in radians. -/
noncomputable def arctan2 (y x : ℝ) : ℝ :=
  if 0 < x then Real.arctan (y / x)
  else if x < 0 then
    (if 0 ≤ y then Real.arctan (y / x) + Real.pi else Real.arctan (y / x) - Real.pi)
  else
    (if 0 < y then Real.pi / 2 else if y < 0 then -(Real.pi / 2) else 0)

/-- `SourcePlaneGeometry.coordinates_angle_from_x`: the angle in
degrees between the centre-shifted coordinates and the positive x-axis
(counter-clockwise), folded into [0, 360) by adding 360 when
negative. -/
noncomputable def coordinates_angle_from_x (centre coordinates : ℝ × ℝ) : ℝ :=
  let shifted := coordinates_to_centre centre coordinates
  let theta_from_x := arctan2 shifted.2 shifted.1 * (180 / Real.pi)
  if theta_from_x < 0 then theta_from_x + 360 else theta_from_x

/-- `numpy.polyval`: Horner evaluation of a polynomial given by its
coefficients, highest power first. -/
noncomputable def polyval (p : List ℝ) (x : ℝ) : ℝ :=
  p.foldl (fun acc c => acc * x + c) 0

/-- `SourcePlaneBorder`: relocation depends only on the centre and the
fitted polynomial, which the class stores. -/
structure SourcePlaneBorder where
  centre : ℝ × ℝ
  polynomial : List ℝ

/-- The stored border radii (`self.radii`). -/
noncomputable def radiiOf (centre : ℝ × ℝ) (coordinates : List (ℝ × ℝ)) : List ℝ :=
  coordinates.map (fun r => coordinates_to_radius centre r)

/-- The stored border angles (`self.thetas`). -/
noncomputable def thetasOf (centre : ℝ × ℝ) (coordinates : List (ℝ × ℝ)) : List ℝ :=
  coordinates.map (fun r => coordinates_angle_from_x centre r)

/-- The summed squared residuals of a candidate polynomial against the
border's angle/radius samples. -/
noncomputable def fitResidual (centre : ℝ × ℝ) (coordinates : List (ℝ × ℝ))
    (q : List ℝ) : ℝ :=
  (((thetasOf centre coordinates).zip (radiiOf centre coordinates)).map
    (fun tr => (polyval q tr.1 - tr.2) ^ 2)).sum

/-- Modelled from the spec: `numpy.polyfit`, used by
`SourcePlaneBorder.__init__`, is external; spec section 4.2 says the
border "fits radius = poly(angle) by least-squares over the border
points".  `IsBorderFit coordinates degree b` states that the border `b`
stores a polynomial of that degree minimising the summed squared
residuals over the border coordinates. -/
def IsBorderFit (coordinates : List (ℝ × ℝ)) (polynomial_degree : ℕ)
    (b : SourcePlaneBorder) : Prop :=
  b.polynomial.length = polynomial_degree + 1 ∧
  ∀ q : List ℝ, q.length = polynomial_degree + 1 →
    fitResidual b.centre coordinates b.polynomial ≤ fitResidual b.centre coordinates q

/-- `SourcePlaneBorder.border_radius_at_theta`. -/
noncomputable def border_radius_at_theta (b : SourcePlaneBorder) (theta : ℝ) : ℝ :=
  polyval b.polynomial theta

/-- `SourcePlaneBorder.move_factor`: `border_radius / radius` when the
coordinate's radius exceeds the fitted border radius at its angle,
else `1.0`. -/
noncomputable def move_factor (b : SourcePlaneBorder) (coordinate : ℝ × ℝ) : ℝ :=
  let theta := coordinates_angle_from_x b.centre coordinate
  let radius := coordinates_to_radius b.centre coordinate
  let border_radius := border_radius_at_theta b theta
  if border_radius < radius then border_radius / radius else 1

/-- `SourcePlaneBorder.relocated_coordinate`: both raw coordinate
components are scaled by the move factor. -/
noncomputable def relocated_coordinate (b : SourcePlaneBorder)
    (coordinate : ℝ × ℝ) : ℝ × ℝ :=
  (coordinate.1 * move_factor b coordinate, coordinate.2 * move_factor b coordinate)

lemma polyval_single (a θ : ℝ) : polyval [a] θ = a := by
  simp [polyval]

lemma sqrt_eval {v r : ℝ} (hr : 0 ≤ r) (hv : v = r ^ 2) : Real.sqrt v = r := by
  rw [hv, Real.sqrt_sq hr]

lemma isfit_const (centre : ℝ × ℝ) (pt : ℝ × ℝ)
    (hrad : coordinates_to_radius centre pt = 1) :
    IsBorderFit [pt] 0 ⟨centre, [1]⟩ := by
  constructor
  · rfl
  · intro q hq
    have hz : fitResidual centre [pt] [1] = 0 := by
      simp [fitResidual, thetasOf, radiiOf, polyval_single, hrad]
    show fitResidual centre [pt] [1] ≤ fitResidual centre [pt] q
    rw [hz]
    apply List.sum_nonneg
    intro v hv
    obtain ⟨tr, _, htr⟩ := List.mem_map.mp hv
    rw [← htr]
    exact sq_nonneg _

lemma move_factor_of_outside (b : SourcePlaneBorder) (c : ℝ × ℝ)
    (hout : border_radius_at_theta b (coordinates_angle_from_x b.centre c)
      < coordinates_to_radius b.centre c) :
    move_factor b c = border_radius_at_theta b (coordinates_angle_from_x b.centre c)
      / coordinates_to_radius b.centre c := by
  simp only [move_factor]
  rw [if_pos hout]

lemma move_factor_of_inside (b : SourcePlaneBorder) (c : ℝ × ℝ)
    (hin : coordinates_to_radius b.centre c
      ≤ border_radius_at_theta b (coordinates_angle_from_x b.centre c)) :
    move_factor b c = 1 := by
  simp only [move_factor]
  rw [if_neg (not_lt.mpr hin)]

lemma relocated_radius_origin (b : SourcePlaneBorder) (hc0 : b.centre = (0, 0))
    (c : ℝ × ℝ)
    (hbpos : 0 < border_radius_at_theta b (coordinates_angle_from_x b.centre c))
    (hout : border_radius_at_theta b (coordinates_angle_from_x b.centre c)
      < coordinates_to_radius b.centre c) :
    coordinates_to_radius b.centre (relocated_coordinate b c)
      = border_radius_at_theta b (coordinates_angle_from_x b.centre c) := by
  have hrpos : 0 < coordinates_to_radius b.centre c := lt_trans hbpos hout
  have hmf := move_factor_of_outside b c hout
  have hmfpos : 0 < move_factor b c := by
    rw [hmf]
    exact div_pos hbpos hrpos
  have hscaled : coordinates_to_radius b.centre (relocated_coordinate b c)
      = move_factor b c * coordinates_to_radius b.centre c := by
    rw [hc0]
    simp only [relocated_coordinate, coordinates_to_radius]
    rw [show (c.1 * move_factor b c - 0) ^ 2 + (c.2 * move_factor b c - 0) ^ 2
        = move_factor b c ^ 2 * ((c.1 - 0) ^ 2 + (c.2 - 0) ^ 2) by ring]
    rw [Real.sqrt_mul (sq_nonneg _), Real.sqrt_sq_eq_abs, abs_of_pos hmfpos]
  rw [hscaled, hmf, div_mul_cancel₀]
  exact ne_of_gt hrpos

lemma arctan2_pos_smul (t y x : ℝ) (ht : 0 < t) :
    arctan2 (t * y) (t * x) = arctan2 y x := by
  unfold arctan2
  have hq : t * y / (t * x) = y / x := mul_div_mul_left y x (ne_of_gt ht)
  rcases lt_trichotomy x 0 with hx | hx | hx
  · have htx : t * x < 0 := mul_neg_of_pos_of_neg ht hx
    rw [if_neg (not_lt.mpr (le_of_lt htx)), if_pos htx,
      if_neg (not_lt.mpr (le_of_lt hx)), if_pos hx, hq]
    by_cases hy : 0 ≤ y
    · rw [if_pos (mul_nonneg (le_of_lt ht) hy), if_pos hy]
    · push_neg at hy
      rw [if_neg (not_le.mpr (mul_neg_of_pos_of_neg ht hy)), if_neg (not_le.mpr hy)]
  · subst hx
    rw [mul_zero]
    simp only [lt_self_iff_false, if_false]
    by_cases hy : 0 < y
    · rw [if_pos (mul_pos ht hy), if_pos hy]
    · rw [if_neg (by intro hc; exact hy (by nlinarith)), if_neg hy]
      by_cases hy2 : y < 0
      · rw [if_pos (mul_neg_of_pos_of_neg ht hy2), if_pos hy2]
      · rw [if_neg (by intro hc; exact hy2 (by nlinarith)), if_neg hy2]
  · rw [if_pos (mul_pos ht hx), if_pos hx, hq]

lemma angle_pos_smul (c : ℝ × ℝ) (t : ℝ) (ht : 0 < t) :
    coordinates_angle_from_x (0, 0) (c.1 * t, c.2 * t)
      = coordinates_angle_from_x (0, 0) c := by
  simp only [coordinates_angle_from_x, coordinates_to_centre]
  norm_num
  rw [show c.2 * t = t * c.2 by ring, show c.1 * t = t * c.1 by ring,
    arctan2_pos_smul t c.2 c.1 ht]

/-- C7 (amended): for every fitted SourcePlaneBorder centred at the
origin and every coordinate whose radius about the centre exceeds the
(positive) fitted border radius at its angle, the relocated
coordinate's radius about the centre equals the fitted border radius
at the original coordinate's angle, exactly in the real model.  With a
non-zero centre the property fails, because relocation scales the raw
coordinates about the origin while the radius is measured about the
centre -- see the counterexample. -/
theorem relocated_radius_on_border (b : SourcePlaneBorder)
    (coordinates : List (ℝ × ℝ)) (degree : ℕ)
    (hfit : IsBorderFit coordinates degree b)
    (hc0 : b.centre = (0, 0)) (c : ℝ × ℝ)
    (hbpos : 0 < border_radius_at_theta b (coordinates_angle_from_x b.centre c))
    (hout : border_radius_at_theta b (coordinates_angle_from_x b.centre c)
      < coordinates_to_radius b.centre c) :
    coordinates_to_radius b.centre (relocated_coordinate b c)
      = border_radius_at_theta b (coordinates_angle_from_x b.centre c) :=
  relocated_radius_origin b hc0 c hbpos hout

/-- Witness for C7 at a border of constant fitted radius 1 about the
origin and the outside coordinate (4, 0). -/
theorem relocated_radius_on_border_witness :
    IsBorderFit [((1 : ℝ), 0)] 0 ⟨(0, 0), [1]⟩ ∧
    border_radius_at_theta ⟨(0, 0), [1]⟩
        (coordinates_angle_from_x (0, 0) (4, 0))
      < coordinates_to_radius (0, 0) (4, 0) ∧
    coordinates_to_radius (0, 0)
        (relocated_coordinate ⟨(0, 0), [1]⟩ (4, 0))
      = border_radius_at_theta ⟨(0, 0), [1]⟩
          (coordinates_angle_from_x (0, 0) (4, 0)) := by
  have hfit : IsBorderFit [((1 : ℝ), 0)] 0 ⟨(0, 0), [1]⟩ :=
    isfit_const _ _ (by unfold coordinates_to_radius; norm_num)
  have hb : ∀ θ : ℝ, border_radius_at_theta ⟨((0 : ℝ), (0 : ℝ)), [1]⟩ θ = 1 :=
    fun θ => polyval_single 1 θ
  have hrad4 : coordinates_to_radius ((0 : ℝ), (0 : ℝ)) (4, 0) = 4 := by
    unfold coordinates_to_radius
    apply sqrt_eval (by norm_num)
    norm_num
  have hout : border_radius_at_theta ⟨(0, 0), [1]⟩
      (coordinates_angle_from_x (0, 0) (4, 0)) < coordinates_to_radius (0, 0) (4, 0) := by
    rw [hb, hrad4]
    norm_num
  exact ⟨hfit, hout,
    relocated_radius_on_border ⟨(0, 0), [1]⟩ [((1 : ℝ), 0)] 0 hfit rfl (4, 0)
      (by rw [hb]; norm_num) hout⟩

/-- C7 counterexample: a border fitted (degree 0, least squares) to the
single border coordinate (2, 0) about the centre (1, 0) has constant
fitted radius 1; the coordinate (4, 0) has radius 3 about the centre,
but its relocation (4/3, 0) has radius 1/3 about the centre, not 1:
with a non-zero centre the relocated radius misses the border. -/
theorem relocated_radius_counterexample :
    IsBorderFit [((2 : ℝ), 0)] 0 ⟨(1, 0), [1]⟩ ∧
    border_radius_at_theta ⟨(1, 0), [1]⟩
        (coordinates_angle_from_x (1, 0) (4, 0))
      < coordinates_to_radius (1, 0) (4, 0) ∧
    coordinates_to_radius (1, 0)
        (relocated_coordinate ⟨(1, 0), [1]⟩ (4, 0))
      ≠ border_radius_at_theta ⟨(1, 0), [1]⟩
          (coordinates_angle_from_x (1, 0) (4, 0)) := by
  have hfit : IsBorderFit [((2 : ℝ), 0)] 0 ⟨(1, 0), [1]⟩ :=
    isfit_const _ _ (by unfold coordinates_to_radius; norm_num)
  have hb : ∀ θ : ℝ, border_radius_at_theta ⟨((1 : ℝ), (0 : ℝ)), [1]⟩ θ = 1 :=
    fun θ => polyval_single 1 θ
  have hrad : coordinates_to_radius ((1 : ℝ), (0 : ℝ)) (4, 0) = 3 := by
    unfold coordinates_to_radius
    apply sqrt_eval (by norm_num)
    norm_num
  have hout : border_radius_at_theta ⟨(1, 0), [1]⟩
      (coordinates_angle_from_x (1, 0) (4, 0)) < coordinates_to_radius (1, 0) (4, 0) := by
    rw [hb, hrad]
    norm_num
  have hmf : move_factor ⟨(1, 0), [1]⟩ (4, 0) = 1 / 3 := by
    rw [move_factor_of_outside _ _ hout, hb, hrad]
  have hreloc : relocated_coordinate ⟨(1, 0), [1]⟩ (4, 0) = (4 / 3, 0) := by
    unfold relocated_coordinate
    rw [hmf]
    norm_num [Prod.ext_iff]
  have hrad2 : coordinates_to_radius ((1 : ℝ), (0 : ℝ)) (4 / 3, 0) = 1 / 3 := by
    unfold coordinates_to_radius
    apply sqrt_eval (by norm_num)
    norm_num
  refine ⟨hfit, hout, ?_⟩
  rw [hreloc, hrad2, hb]
  norm_num

/-- C8 (amended): relocating a coordinate already inside the fitted
border (radius not exceeding the border radius at its angle) is the
identity for any centre; and for a border centred at the origin whose
fitted polynomial is everywhere positive, relocation is idempotent:
relocating twice yields the same coordinate as relocating once.  With
a non-zero centre double relocation can differ -- see the
counterexample. -/
theorem relocation_idempotent (b : SourcePlaneBorder)
    (coordinates : List (ℝ × ℝ)) (degree : ℕ)
    (hfit : IsBorderFit coordinates degree b) :
    (∀ c : ℝ × ℝ, coordinates_to_radius b.centre c
        ≤ border_radius_at_theta b (coordinates_angle_from_x b.centre c) →
      relocated_coordinate b c = c) ∧
    (b.centre = (0, 0) → (∀ θ : ℝ, 0 < polyval b.polynomial θ) →
      ∀ c : ℝ × ℝ, relocated_coordinate b (relocated_coordinate b c)
        = relocated_coordinate b c) := by
  have hid : ∀ c : ℝ × ℝ, coordinates_to_radius b.centre c
      ≤ border_radius_at_theta b (coordinates_angle_from_x b.centre c) →
      relocated_coordinate b c = c := by
    intro c hin
    unfold relocated_coordinate
    rw [move_factor_of_inside b c hin]
    simp
  refine ⟨hid, ?_⟩
  intro hc0 hpos c
  by_cases hcase : coordinates_to_radius b.centre c
      ≤ border_radius_at_theta b (coordinates_angle_from_x b.centre c)
  · rw [hid c hcase]
    exact hid c hcase
  · push_neg at hcase
    have hbpos : 0 < border_radius_at_theta b (coordinates_angle_from_x b.centre c) :=
      hpos _
    have hrad' := relocated_radius_origin b hc0 c hbpos hcase
    have hmfpos : 0 < move_factor b c := by
      rw [move_factor_of_outside b c hcase]
      exact div_pos hbpos (lt_trans hbpos hcase)
    have hangle : coordinates_angle_from_x b.centre (relocated_coordinate b c)
        = coordinates_angle_from_x b.centre c := by
      rw [hc0]
      unfold relocated_coordinate
      rw [angle_pos_smul c (move_factor b c) hmfpos]
    apply hid
    rw [hrad', hangle]

/-- Witness for C8 at a unit-radius border about the origin and the
coordinate (4, 0). -/
theorem relocation_idempotent_witness :
    IsBorderFit [((1 : ℝ), 0)] 0 ⟨(0, 0), [1]⟩ ∧
    (∀ θ : ℝ, 0 < polyval ([1] : List ℝ) θ) ∧
    relocated_coordinate ⟨(0, 0), [1]⟩
        (relocated_coordinate ⟨(0, 0), [1]⟩ (4, 0))
      = relocated_coordinate ⟨(0, 0), [1]⟩ (4, 0) := by
  have hfit : IsBorderFit [((1 : ℝ), 0)] 0 ⟨(0, 0), [1]⟩ :=
    isfit_const _ _ (by unfold coordinates_to_radius; norm_num)
  have hpos : ∀ θ : ℝ, 0 < polyval ([1] : List ℝ) θ := by
    intro θ
    rw [polyval_single]
    norm_num
  exact ⟨hfit, hpos,
    (relocation_idempotent ⟨(0, 0), [1]⟩ [((1 : ℝ), 0)] 0 hfit).2 rfl hpos (4, 0)⟩

/-- C8 counterexample: a border fitted (degree 0, least squares) to the
border coordinate (-2, 0) about the centre (-3, 0) has constant fitted
radius 1; relocating (1, 0) gives (1/4, 0), and relocating again gives
(1/13, 0): with a non-zero centre relocation is not idempotent. -/
theorem relocation_idempotent_counterexample :
    IsBorderFit [((-2 : ℝ), 0)] 0 ⟨(-3, 0), [1]⟩ ∧
    relocated_coordinate ⟨(-3, 0), [1]⟩
        (relocated_coordinate ⟨(-3, 0), [1]⟩ (1, 0))
      ≠ relocated_coordinate ⟨(-3, 0), [1]⟩ (1, 0) := by
  have hfit : IsBorderFit [((-2 : ℝ), 0)] 0 ⟨(-3, 0), [1]⟩ :=
    isfit_const _ _ (by unfold coordinates_to_radius; norm_num)
  have hb : ∀ θ : ℝ, border_radius_at_theta ⟨((-3 : ℝ), (0 : ℝ)), [1]⟩ θ = 1 :=
    fun θ => polyval_single 1 θ
  have hrad1 : coordinates_to_radius ((-3 : ℝ), (0 : ℝ)) (1, 0) = 4 := by
    unfold coordinates_to_radius
    apply sqrt_eval (by norm_num)
    norm_num
  have hout1 : border_radius_at_theta ⟨(-3, 0), [1]⟩
      (coordinates_angle_from_x (-3, 0) (1, 0)) < coordinates_to_radius (-3, 0) (1, 0) := by
    rw [hb, hrad1]
    norm_num
  have hreloc1 : relocated_coordinate ⟨(-3, 0), [1]⟩ (1, 0) = (1 / 4, 0) := by
    unfold relocated_coordinate
    rw [move_factor_of_outside _ _ hout1, hb, hrad1]
    norm_num [Prod.ext_iff]
  have hrad2 : coordinates_to_radius ((-3 : ℝ), (0 : ℝ)) (1 / 4, 0) = 13 / 4 := by
    unfold coordinates_to_radius
    apply sqrt_eval (by norm_num)
    norm_num
  have hout2 : border_radius_at_theta ⟨(-3, 0), [1]⟩
      (coordinates_angle_from_x (-3, 0) (1 / 4, 0))
      < coordinates_to_radius (-3, 0) (1 / 4, 0) := by
    rw [hb, hrad2]
    norm_num
  have hreloc2 : relocated_coordinate ⟨(-3, 0), [1]⟩ (1 / 4, 0) = (1 / 13, 0) := by
    unfold relocated_coordinate
    rw [move_factor_of_outside _ _ hout2, hb, hrad2]
    norm_num [Prod.ext_iff]
  refine ⟨hfit, ?_⟩
  rw [hreloc1, hreloc2]
  intro hcontra
  rw [Prod.ext_iff] at hcontra
  norm_num at hcontra

/-- `SourcePlane` of `auto_lens/analysis.py`: the stored traced
sub-pixel coordinates together with the centre. -/
structure SourcePlane where
  coordinates : List (ℝ × ℝ)
  centre : ℝ × ℝ

/-- `SourcePlane.relocate_coordinates_outside_border`: the method body
is `self.coordinates = list(map(lambda r: border.relocated_coordinate(r),
self.coordinates))`: it overwrites the stored coordinate sequence and
returns nothing.  Modelled as a state transformer returning the updated
source plane. -/
noncomputable def relocate_coordinates_outside_border
    (sp : SourcePlane) (border : SourcePlaneBorder) : SourcePlane :=
  { sp with coordinates := sp.coordinates.map (fun r => relocated_coordinate border r) }

/-- C9 (amended): the per-coordinate relocation is a pure function, but
`relocate_coordinates_outside_border` overwrites the source plane's
stored coordinate sequence with the relocated list (the centre is
untouched); it does not leave the stored coordinates unchanged and does
not return them as a separate value -- see the counterexample. -/
theorem relocate_coordinates_outside_border_spec
    (sp : SourcePlane) (border : SourcePlaneBorder) :
    (relocate_coordinates_outside_border sp border).coordinates
      = sp.coordinates.map (fun r => relocated_coordinate border r) ∧
    (relocate_coordinates_outside_border sp border).centre = sp.centre :=
  ⟨rfl, rfl⟩

/-- C9 counterexample: for a source plane storing the single coordinate
(4, 0) and a fitted unit-radius border about the origin, the stored
coordinate sequence after `relocate_coordinates_outside_border` is
[(1, 0)], not the original [(4, 0)]: the operation mutates the source
plane's stored state rather than leaving it unchanged. -/
theorem relocate_mutates_counterexample :
    IsBorderFit [((1 : ℝ), 0)] 0 ⟨(0, 0), [1]⟩ ∧
    (relocate_coordinates_outside_border ⟨[(4, 0)], (0, 0)⟩ ⟨(0, 0), [1]⟩).coordinates
      ≠ (⟨[(4, 0)], (0, 0)⟩ : SourcePlane).coordinates := by
  have hfit : IsBorderFit [((1 : ℝ), 0)] 0 ⟨(0, 0), [1]⟩ :=
    isfit_const _ _ (by unfold coordinates_to_radius; norm_num)
  have hb : ∀ θ : ℝ, border_radius_at_theta ⟨((0 : ℝ), (0 : ℝ)), [1]⟩ θ = 1 :=
    fun θ => polyval_single 1 θ
  have hrad : coordinates_to_radius ((0 : ℝ), (0 : ℝ)) (4, 0) = 4 := by
    unfold coordinates_to_radius
    apply sqrt_eval (by norm_num)
    norm_num
  have hout : border_radius_at_theta ⟨(0, 0), [1]⟩
      (coordinates_angle_from_x (0, 0) (4, 0)) < coordinates_to_radius (0, 0) (4, 0) := by
    rw [hb, hrad]
    norm_num
  have hreloc : relocated_coordinate ⟨(0, 0), [1]⟩ (4, 0) = (1, 0) := by
    unfold relocated_coordinate
    rw [move_factor_of_outside _ _ hout, hb, hrad]
    norm_num [Prod.ext_iff]
  refine ⟨hfit, ?_⟩
  show ([((4 : ℝ), (0 : ℝ))].map (fun r => relocated_coordinate ⟨(0, 0), [1]⟩ r))
    ≠ [(4, 0)]
  rw [List.map_cons, List.map_nil, hreloc]
  intro hcontra
  rw [List.cons.injEq, Prod.ext_iff] at hcontra
  norm_num at hcontra

end AutoLens
